import Mathlib

/-!
Verification of the duplicate-file finder core (`duplicate_finder/core.py`,
with the argument validation of `duplicate_finder/cli.py`).

The directory walk is modelled by the list of file entries it enumerates, in
traversal order: each entry carries the path, the outcome of `stat` (`none`
models an `OSError`, otherwise the reported size) and the outcome of reading
the file's bytes (`none` models an unreadable file, for which
`calculate_file_hash` returns `None`).  The MD5 digest is modelled by a
function `hash` on contents into an arbitrary digest type; where a claim
needs that distinct contents have distinct digests (the spec identifies
digest equality with content equality), this appears as an injectivity
hypothesis.  The filesystem seen by `analyze_duplicates` and
`delete_duplicates` is a map from paths to optional file data (`none` models
a missing file, where `stat` and `unlink` raise `OSError`).
-/

namespace DupleFinder

/-- One file as enumerated by `os.walk`, in traversal order. -/
structure FileEntry where
  path : String
  statSize : Option Nat
  content : Option (List Nat)
deriving DecidableEq

/-- `calculate_file_hash`: digest of the file's bytes, `none` when the read
fails (`IOError` / `OSError` / `PermissionError`). -/
def calculate_file_hash (hash : List Nat → α) (e : FileEntry) : Option α :=
  e.content.map hash

/-- `duplicates[file_hash].append(filepath)` on the insertion-ordered dict
`duplicates`, modelled as an association list keyed by digest. -/
def addPath [DecidableEq α] (groups : List (α × List String)) (d : α) (p : String) :
    List (α × List String) :=
  match groups with
  | [] => [(d, [p])]
  | (d', ps) :: rest =>
    if d' = d then (d', ps ++ [p]) :: rest else (d', ps) :: addPath rest d p

/-- Value stored under key `d` in the ordered dict (`[]` when the key is
absent, matching `defaultdict(list)`). -/
def lookupG [DecidableEq α] (groups : List (α × List String)) (d : α) : List String :=
  match groups with
  | [] => []
  | (d', ps) :: rest => if d' = d then ps else lookupG rest d

/-- Keys of the ordered dict, in insertion order. -/
def keysG (groups : List (α × List String)) : List α :=
  groups.map Prod.fst

/-- Loop state of `find_duplicates`: the accumulating dict, the two counters,
and the list of `progress_callback` invocations `(processed_files,
total_files)` made so far. -/
structure ScanState (α : Type) where
  groups : List (α × List String)
  totalFiles : Nat
  processedFiles : Nat
  events : List (Nat × Nat)
deriving DecidableEq

/-- One iteration of the `find_duplicates` loop body on one enumerated file:
count it, skip it when `stat` fails or the size is below `minSize`, otherwise
hash it; on a successful hash append the path to the digest's group and bump
`processed_files`; finally run the progress-callback test (which the source
reaches whether or not the hash succeeded). -/
def scanStep [DecidableEq α] (hash : List Nat → α) (minSize : Nat) (hasCb : Bool)
    (s : ScanState α) (e : FileEntry) : ScanState α :=
  let total := s.totalFiles + 1
  match e.statSize with
  | none => { s with totalFiles := total }
  | some sz =>
    if sz < minSize then { s with totalFiles := total }
    else
      match calculate_file_hash hash e with
      | some d =>
        let pr := s.processedFiles + 1
        { groups := addPath s.groups d e.path
          totalFiles := total
          processedFiles := pr
          events := if hasCb && pr % 100 == 0 then s.events ++ [(pr, total)] else s.events }
      | none =>
        { s with
          totalFiles := total
          events :=
            if hasCb && s.processedFiles % 100 == 0 then
              s.events ++ [(s.processedFiles, total)]
            else s.events }

/-- The whole `find_duplicates` loop over the enumerated files. -/
def scanFold [DecidableEq α] (hash : List Nat → α) (minSize : Nat) (hasCb : Bool)
    (entries : List FileEntry) : ScanState α :=
  entries.foldl (scanStep hash minSize hasCb) ⟨[], 0, 0, []⟩

/-- `find_duplicates`: run the scan and keep only the groups with at least two
paths. -/
def find_duplicates [DecidableEq α] (hash : List Nat → α) (minSize : Nat) (hasCb : Bool)
    (entries : List FileEntry) : List (α × List String) :=
  (scanFold hash minSize hasCb entries).groups.filter fun g => decide (1 < g.2.length)

/-- The digest under which `find_duplicates` files entry `e`, `none` when the
entry is skipped (failed `stat`, size below `minSize`, or unreadable). -/
def entryDigest (hash : List Nat → α) (minSize : Nat) (e : FileEntry) : Option α :=
  match e.statSize with
  | none => none
  | some sz => if sz < minSize then none else calculate_file_hash hash e

/-- The paths that the scan files under digest `d`, in traversal order. -/
def scanHits [DecidableEq α] (hash : List Nat → α) (minSize : Nat) (d : α)
    (entries : List FileEntry) : List String :=
  (entries.filter fun e => decide (entryDigest hash minSize e = some d)).map (·.path)

theorem scanStep_groups [DecidableEq α] (hash : List Nat → α) (minSize : Nat) (hasCb : Bool)
    (s : ScanState α) (e : FileEntry) :
    (scanStep hash minSize hasCb s e).groups =
      match entryDigest hash minSize e with
      | none => s.groups
      | some d => addPath s.groups d e.path := by
  unfold scanStep entryDigest
  cases e.statSize with
  | none => rfl
  | some sz =>
    by_cases h : sz < minSize
    · simp [h]
    · cases hc : calculate_file_hash hash e <;> simp [h, hc]

theorem lookupG_addPath_self [DecidableEq α] (g : List (α × List String)) (d : α) (p : String) :
    lookupG (addPath g d p) d = lookupG g d ++ [p] := by
  induction g with
  | nil => simp [addPath, lookupG]
  | cons hd tl ih =>
    obtain ⟨d', ps⟩ := hd
    by_cases h : d' = d
    · simp [addPath, lookupG, h]
    · simp [addPath, lookupG, h, ih]

theorem lookupG_addPath_ne [DecidableEq α] (g : List (α × List String)) (d d' : α) (p : String)
    (h : d' ≠ d) : lookupG (addPath g d p) d' = lookupG g d' := by
  induction g with
  | nil => simp [addPath, lookupG, Ne.symm h]
  | cons hd tl ih =>
    obtain ⟨d₀, ps⟩ := hd
    by_cases h0 : d₀ = d
    · subst h0
      simp [addPath, lookupG, Ne.symm h]
    · simp [addPath, lookupG, h0, ih]

theorem keysG_addPath [DecidableEq α] (g : List (α × List String)) (d : α) (p : String) :
    keysG (addPath g d p) = if d ∈ keysG g then keysG g else keysG g ++ [d] := by
  induction g with
  | nil => simp [addPath, keysG]
  | cons hd tl ih =>
    obtain ⟨d₀, ps⟩ := hd
    by_cases h0 : d₀ = d
    · subst h0
      simp [addPath, keysG]
    · have hcons : keysG (addPath ((d₀, ps) :: tl) d p) = d₀ :: keysG (addPath tl d p) := by
        simp [addPath, h0, keysG]
      rw [hcons, ih]
      by_cases hm : d ∈ List.map Prod.fst tl
      · simp [keysG, List.mem_cons, hm, Ne.symm h0]
      · simp [keysG, List.mem_cons, hm, Ne.symm h0]

theorem keysG_nodup_addPath [DecidableEq α] (g : List (α × List String)) (d : α) (p : String)
    (h : (keysG g).Nodup) : (keysG (addPath g d p)).Nodup := by
  rw [keysG_addPath]
  by_cases hm : d ∈ keysG g
  · simpa [hm] using h
  · rw [if_neg hm]
    refine List.Nodup.append h (List.nodup_singleton d) ?_
    intro x hx hx'
    rw [List.mem_singleton] at hx'
    subst hx'
    exact hm hx

theorem eq_lookupG_of_mem [DecidableEq α] (g : List (α × List String)) (d : α)
    (ps : List String) (hk : (keysG g).Nodup) (hm : (d, ps) ∈ g) : ps = lookupG g d := by
  induction g with
  | nil => simp at hm
  | cons hd tl ih =>
    obtain ⟨d₀, ps₀⟩ := hd
    have hk2 : d₀ ∉ keysG tl ∧ (keysG tl).Nodup := by
      have : (d₀ :: keysG tl).Nodup := by simpa [keysG] using hk
      exact List.nodup_cons.mp this
    rcases List.mem_cons.mp hm with h | h
    · rw [Prod.mk.injEq] at h
      obtain ⟨h1, h2⟩ := h
      simp [lookupG, h1.symm, h2]
    · have hd0 : d₀ ≠ d := by
        intro he
        subst he
        exact hk2.1 (List.mem_map.mpr ⟨(d₀, ps), h, rfl⟩)
      simpa [lookupG, hd0] using ih hk2.2 h

theorem mem_of_lookupG_ne_nil [DecidableEq α] (g : List (α × List String)) (d : α)
    (h : lookupG g d ≠ []) : (d, lookupG g d) ∈ g := by
  induction g with
  | nil => simp [lookupG] at h
  | cons hd tl ih =>
    obtain ⟨d₀, ps₀⟩ := hd
    by_cases h0 : d₀ = d
    · subst h0
      simp [lookupG]
    · simp only [lookupG, h0, if_false, if_neg h0] at h ⊢
      exact List.mem_cons_of_mem _ (ih h)

theorem scanHits_cons [DecidableEq α] (hash : List Nat → α) (minSize : Nat) (d : α)
    (e : FileEntry) (rest : List FileEntry) :
    scanHits hash minSize d (e :: rest) =
      (if entryDigest hash minSize e = some d then [e.path] else []) ++
        scanHits hash minSize d rest := by
  by_cases hd : entryDigest hash minSize e = some d
  · simp [scanHits, hd]
  · simp [scanHits, hd]

theorem lookupG_scan_foldl [DecidableEq α] (hash : List Nat → α) (minSize : Nat) (hasCb : Bool)
    (entries : List FileEntry) :
    ∀ (s : ScanState α) (d : α),
      lookupG (entries.foldl (scanStep hash minSize hasCb) s).groups d =
        lookupG s.groups d ++ scanHits hash minSize d entries := by
  induction entries with
  | nil =>
    intro s d
    simp [scanHits]
  | cons e rest ih =>
    intro s d
    rw [List.foldl_cons, ih, scanHits_cons]
    have hg := scanStep_groups hash minSize hasCb s e
    rcases he : entryDigest hash minSize e with _ | d'
    · rw [he] at hg
      simp [hg, he]
    · rw [he] at hg
      by_cases hdd : d' = d
      · subst hdd
        simp [hg, lookupG_addPath_self]

      · have hne : ¬ entryDigest hash minSize e = some d := by simp [he, hdd]
        simp [hg, hne, lookupG_addPath_ne s.groups d' d e.path (Ne.symm hdd)]
        exact hdd

theorem keysG_nodup_scan_foldl [DecidableEq α] (hash : List Nat → α) (minSize : Nat)
    (hasCb : Bool) (entries : List FileEntry) :
    ∀ s : ScanState α, (keysG s.groups).Nodup →
      (keysG ((entries.foldl (scanStep hash minSize hasCb) s)).groups).Nodup := by
  induction entries with
  | nil =>
    intro s h
    simpa using h
  | cons e rest ih =>
    intro s h
    rw [List.foldl_cons]
    apply ih
    have hg := scanStep_groups hash minSize hasCb s e
    rcases he : entryDigest hash minSize e with _ | d'
    · rw [he] at hg
      rw [hg]
      exact h
    · rw [he] at hg
      rw [hg]
      exact keysG_nodup_addPath _ _ _ h

theorem scanFold_groups_lookup [DecidableEq α] (hash : List Nat → α) (minSize : Nat)
    (hasCb : Bool) (entries : List FileEntry) (d : α) :
    lookupG (scanFold hash minSize hasCb entries).groups d = scanHits hash minSize d entries := by
  have h := lookupG_scan_foldl hash minSize hasCb entries ⟨[], 0, 0, []⟩ d
  simpa [scanFold, lookupG] using h

theorem scanFold_keys_nodup [DecidableEq α] (hash : List Nat → α) (minSize : Nat)
    (hasCb : Bool) (entries : List FileEntry) :
    (keysG (scanFold hash minSize hasCb entries).groups).Nodup :=
  keysG_nodup_scan_foldl hash minSize hasCb entries _ (by simp [keysG])

theorem mem_find_duplicates_iff [DecidableEq α] (hash : List Nat → α) (minSize : Nat)
    (hasCb : Bool) (entries : List FileEntry) (d : α) (ps : List String) :
    (d, ps) ∈ find_duplicates hash minSize hasCb entries ↔
      ps = scanHits hash minSize d entries ∧ 1 < ps.length := by
  unfold find_duplicates
  constructor
  · intro h
    have hf := List.mem_filter.mp h
    have hps : ps = scanHits hash minSize d entries := by
      have h2 := eq_lookupG_of_mem _ _ _ (scanFold_keys_nodup hash minSize hasCb entries) hf.1
      rw [scanFold_groups_lookup] at h2
      exact h2
    refine ⟨hps, ?_⟩
    simpa using of_decide_eq_true hf.2
  · rintro ⟨hps, hlen⟩
    have hne : lookupG (scanFold hash minSize hasCb entries).groups d ≠ [] := by
      rw [scanFold_groups_lookup, ← hps]
      intro hnil
      rw [hnil] at hlen
      simp at hlen
    have hmem := mem_of_lookupG_ne_nil _ _ hne
    rw [scanFold_groups_lookup, ← hps] at hmem
    exact List.mem_filter.mpr ⟨hmem, by simpa using hlen⟩

/-- The filesystem as seen through `Path.stat` and `Path.unlink`: a map from
paths to the file's data, `none` for a missing file (where both calls raise
`OSError`).  The data type `β` is the file size for size-level reasoning, or
the byte content when the scan and the deletion are chained; `size` extracts
`st_size` from it. -/
abbrev FS (β : Type) := String → Option β

/-- `Path.unlink`: remove the file (the success branch). -/
def FS.unlink (fs : FS β) (p : String) : FS β :=
  fun q => if q = p then none else fs q

/-- State threaded through `delete_duplicates`, together with the trace of
paths on which `unlink` was attempted. -/
structure DelState (β : Type) where
  fs : FS β
  deleted : Nat
  freed : Nat
  attempts : List String

/-- The body of the inner `for filepath in filepaths[1:]` loop: try to unlink
one non-keeper path; on success bump `deleted_count` and add the keeper's
size to `freed_space`; an `OSError` (missing file) is printed and the loop
continues. -/
def delStep (sz : Nat) (s : DelState β) (p : String) : DelState β :=
  match s.fs p with
  | some _ => ⟨s.fs.unlink p, s.deleted + 1, s.freed + sz, s.attempts ++ [p]⟩
  | none => ⟨s.fs, s.deleted, s.freed, s.attempts ++ [p]⟩

/-- The body of the outer `for file_hash, filepaths in duplicates.items()`
loop of `delete_duplicates`: `filepaths[0].stat()` raises `IndexError` on an
empty group and `OSError` on a missing keeper, both caught by `continue`;
otherwise every path after index 0 is fed to the unlink loop. -/
def delGroup (size : β → Nat) (s : DelState β) (paths : List String) : DelState β :=
  match paths with
  | [] => s
  | keeper :: rest =>
    match s.fs keeper with
    | none => s
    | some v => rest.foldl (delStep (size v)) s

/-- `delete_duplicates`: keep the first file of each group, delete the rest,
returning the final filesystem, `(deleted_count, freed_space)` and the trace
of attempted unlinks. -/
def delete_duplicates (size : β → Nat) (fs : FS β) (dups : List (α × List String)) :
    DelState β :=
  dups.foldl (fun s g => delGroup size s g.2) ⟨fs, 0, 0, []⟩

/-- The `total_space` accumulation of `analyze_duplicates`: `filepaths[0]`
raises an uncaught `IndexError` on an empty group (modelled by `none`), and a
keeper whose `stat` raises `OSError` is skipped by `continue`. -/
def analyzeSpace (size : β → Nat) (fs : FS β) (dups : List (α × List String)) : Option Nat :=
  match dups with
  | [] => some 0
  | (_, paths) :: rest =>
    match paths with
    | [] => none
    | keeper :: _ =>
      match analyzeSpace size fs rest with
      | none => none
      | some acc =>
        match fs keeper with
        | none => some acc
        | some v => some (size v * (paths.length - 1) + acc)

/-- `analyze_duplicates`: `(total_sets, total_space)`, `none` when an
`IndexError` escapes. -/
def analyze_duplicates (size : β → Nat) (fs : FS β) (dups : List (α × List String)) :
    Option (Nat × Nat) :=
  (analyzeSpace size fs dups).map fun sp => (dups.length, sp)

/-- The command-line arguments of `cli.parse_args` that `validate_args` and
`main` consult. -/
structure Args where
  directory : String
  recursive : Bool
  minSize : Int
  dryRun : Bool
  delete : Bool
  quiet : Bool

/-- The message of the `ValueError` raised for a root that is not a
directory. -/
def invalidRootMsg (d : String) : String :=
  "'" ++ d ++ "' is not a valid directory"

/-- The message of the `ValueError` raised for `--delete` with `--dry-run`. -/
def conflictMsg : String :=
  "Cannot use both --delete and --dry-run"

/-- The message of the `ValueError` raised for a negative `--min-size`. -/
def negativeSizeMsg : String :=
  "Minimum size must be non-negative"

/-- `cli.validate_args`: `isDir` is the `os.path.isdir` oracle. -/
def validate_args (isDir : String → Bool) (a : Args) : Except String Unit :=
  if !isDir a.directory then .error (invalidRootMsg a.directory)
  else if a.delete && a.dryRun then .error conflictMsg
  else if a.minSize < 0 then .error negativeSizeMsg
  else .ok ()

/-- The scan operation as invoked through the CLI: `main` validates the
arguments (exiting on the `ValueError`) before calling `find_duplicates`;
the progress callback is passed exactly when `--quiet` is absent. -/
def runScan [DecidableEq α] (isDir : String → Bool) (a : Args) (hash : List Nat → α)
    (entries : List FileEntry) : Except String (List (α × List String)) :=
  match validate_args isDir a with
  | .error e => .error e
  | .ok _ => .ok (find_duplicates hash a.minSize.toNat (!a.quiet) entries)

/-- Whether the scan hashes entry `e` successfully (reaches
`processed_files += 1`). -/
def hashedOk (minSize : Nat) (e : FileEntry) : Bool :=
  match e.statSize with
  | none => false
  | some sz => if sz < minSize then false else e.content.isSome

/-- Following the spec's words for the Grouper's progress contract: the
callback "fires after every 100th successfully hashed file, with cumulative
(processed-so-far, total-files-seen)", where total "is the count of files
enumerated so far at the time of each callback firing".  State:
`(total, processed, events)`. -/
def specProgressStep (minSize : Nat) (s : Nat × Nat × List (Nat × Nat)) (e : FileEntry) :
    Nat × Nat × List (Nat × Nat) :=
  let total := s.1 + 1
  if hashedOk minSize e then
    let pr := s.2.1 + 1
    (total, pr, if pr % 100 == 0 then s.2.2 ++ [(pr, total)] else s.2.2)
  else
    (total, s.2.1, s.2.2)

/-- The spec-mandated sequence of progress-callback invocations for a scan. -/
def specProgressEvents (minSize : Nat) (entries : List FileEntry) : List (Nat × Nat) :=
  (entries.foldl (specProgressStep minSize) (0, 0, [])).2.2

/-- `fs'` holds at most the files of `fs`, with unchanged data. -/
def FS.Sub (fs' fs : FS β) : Prop :=
  ∀ q v, fs' q = some v → fs q = some v

theorem FS.Sub.rfl (fs : FS β) : FS.Sub fs fs :=
  fun _ _ h => h

theorem FS.Sub.trans {f1 f2 f3 : FS β} (h1 : FS.Sub f1 f2) (h2 : FS.Sub f2 f3) :
    FS.Sub f1 f3 :=
  fun q v h => h2 q v (h1 q v h)

theorem FS.Sub.none {fs' fs : FS β} (h : FS.Sub fs' fs) {q : String}
    (hq : fs q = none) : fs' q = none := by
  cases hq' : fs' q with
  | none => rfl
  | some v => rw [h q v hq'] at hq; cases hq

theorem delStep_fs_ne (sz : Nat) (s : DelState β) (p q : String) (h : q ≠ p) :
    (delStep sz s p).fs q = s.fs q := by
  cases hp : s.fs p <;> simp [delStep, hp, FS.unlink, h]

theorem delStep_fs_self (sz : Nat) (s : DelState β) (p : String) :
    (delStep sz s p).fs p = none := by
  cases hp : s.fs p <;> simp [delStep, hp, FS.unlink]

theorem delStep_fs_sub (sz : Nat) (s : DelState β) (p : String) :
    FS.Sub (delStep sz s p).fs s.fs := by
  intro q v h
  by_cases hq : q = p
  · subst hq
    rw [delStep_fs_self sz s q] at h
    cases h
  · rw [delStep_fs_ne sz s p q hq] at h
    exact h

theorem foldl_delStep_fs_sub (sz : Nat) :
    ∀ (rest : List String) (s : DelState β),
      FS.Sub (rest.foldl (delStep sz) s).fs s.fs := by
  intro rest
  induction rest with
  | nil => intro s; exact FS.Sub.rfl _
  | cons p t ih =>
    intro s
    rw [List.foldl_cons]
    exact (ih _).trans (delStep_fs_sub sz s p)

theorem foldl_delStep_fs_untouched (sz : Nat) :
    ∀ (rest : List String) (s : DelState β) (q : String), q ∉ rest →
      (rest.foldl (delStep sz) s).fs q = s.fs q := by
  intro rest
  induction rest with
  | nil => intro s q _; rfl
  | cons p t ih =>
    intro s q hq
    rw [List.foldl_cons, ih _ _ (fun h => hq (List.mem_cons_of_mem _ h)),
      delStep_fs_ne sz s p q (fun h => hq (h ▸ List.mem_cons_self p t))]

theorem foldl_delStep_fs_mem (sz : Nat) :
    ∀ (rest : List String) (s : DelState β) (p : String), p ∈ rest →
      (rest.foldl (delStep sz) s).fs p = none := by
  intro rest
  induction rest with
  | nil => intro s p h; simp at h
  | cons a t ih =>
    intro s p hp
    rw [List.foldl_cons]
    by_cases hpt : p ∈ t
    · exact ih _ _ hpt
    · have hpa : p = a := by
        rcases List.mem_cons.mp hp with h | h
        · exact h
        · exact absurd h hpt
      subst hpa
      rw [foldl_delStep_fs_untouched sz t _ p hpt]
      exact delStep_fs_self sz s p

theorem foldl_delStep_attempts (sz : Nat) :
    ∀ (rest : List String) (s : DelState β),
      (rest.foldl (delStep sz) s).attempts = s.attempts ++ rest := by
  intro rest
  induction rest with
  | nil => intro s; simp
  | cons p t ih =>
    intro s
    rw [List.foldl_cons, ih]
    cases h : s.fs p <;> simp [delStep, h]

theorem delGroup_fs_sub (size : β → Nat) (s : DelState β) (paths : List String) :
    FS.Sub (delGroup size s paths).fs s.fs := by
  cases paths with
  | nil => exact FS.Sub.rfl _
  | cons k rest =>
    cases hk : s.fs k with
    | none => rw [delGroup, hk]; exact FS.Sub.rfl _
    | some v => rw [delGroup, hk]; exact foldl_delStep_fs_sub _ rest s

theorem delGroup_attempts (size : β → Nat) (s : DelState β) (paths : List String) :
    (delGroup size s paths).attempts = s.attempts ++
      (match paths with
       | [] => []
       | keeper :: rest => if (s.fs keeper).isNone then [] else rest) := by
  cases paths with
  | nil => simp [delGroup]
  | cons k rest =>
    cases hk : s.fs k with
    | none => simp [delGroup, hk]
    | some v => simp [delGroup, hk, foldl_delStep_attempts]

theorem delGroup_fs_change (size : β → Nat) (s : DelState β) (paths : List String)
    (q : String) (h : (delGroup size s paths).fs q ≠ s.fs q) :
    ∃ keeper rest, paths = keeper :: rest ∧ q ∈ rest := by
  cases paths with
  | nil => exact absurd rfl h
  | cons k rest =>
    refine ⟨k, rest, rfl, ?_⟩
    by_contra hq
    apply h
    cases hk : s.fs k with
    | none => rw [delGroup, hk]
    | some v => rw [delGroup, hk]; exact foldl_delStep_fs_untouched _ rest s q hq

theorem foldl_delGroup_fs_sub (size : β → Nat) :
    ∀ (G : List (α × List String)) (s : DelState β),
      FS.Sub (G.foldl (fun s g => delGroup size s g.2) s).fs s.fs := by
  intro G
  induction G with
  | nil => intro s; exact FS.Sub.rfl _
  | cons g T ih =>
    intro s
    rw [List.foldl_cons]
    exact (ih _).trans (delGroup_fs_sub size s g.2)

theorem foldl_delGroup_attempts_extend (size : β → Nat) :
    ∀ (G : List (α × List String)) (s : DelState β),
      ∃ t, (G.foldl (fun s g => delGroup size s g.2) s).attempts = s.attempts ++ t := by
  intro G
  induction G with
  | nil => intro s; exact ⟨[], by simp⟩
  | cons g T ih =>
    intro s
    rw [List.foldl_cons]
    obtain ⟨t, ht⟩ := ih (delGroup size s g.2)
    rw [ht, delGroup_attempts]
    exact ⟨_, by rw [List.append_assoc]⟩

/-- A group the deletion loop can no longer act on: empty, keeper gone, or
all non-keepers gone. -/
def groupClean (fs : FS β) (paths : List String) : Prop :=
  match paths with
  | [] => True
  | keeper :: rest => fs keeper = none ∨ ∀ p ∈ rest, fs p = none

theorem groupClean_mono {fs' fs : FS β} (h : FS.Sub fs' fs) (paths : List String)
    (hc : groupClean fs paths) : groupClean fs' paths := by
  cases paths with
  | nil => trivial
  | cons k rest =>
    rcases hc with hc | hc
    · exact Or.inl (h.none hc)
    · exact Or.inr fun p hp => h.none (hc p hp)

theorem delGroup_clean_after (size : β → Nat) (s : DelState β) (paths : List String) :
    groupClean (delGroup size s paths).fs paths := by
  cases paths with
  | nil => trivial
  | cons k rest =>
    cases hk : s.fs k with
    | none => rw [delGroup, hk]; exact Or.inl hk
    | some v =>
      rw [delGroup, hk]
      exact Or.inr fun p hp => foldl_delStep_fs_mem _ rest s p hp

theorem foldl_delStep_of_all_none (sz : Nat) :
    ∀ (rest : List String) (s : DelState β), (∀ p ∈ rest, s.fs p = none) →
      (rest.foldl (delStep sz) s).fs = s.fs ∧
      (rest.foldl (delStep sz) s).deleted = s.deleted ∧
      (rest.foldl (delStep sz) s).freed = s.freed := by
  intro rest
  induction rest with
  | nil => intro s _; exact ⟨rfl, rfl, rfl⟩
  | cons p t ih =>
    intro s hall
    rw [List.foldl_cons]
    have hp : s.fs p = none := hall p (List.mem_cons_self p t)
    have hstep : delStep sz s p = ⟨s.fs, s.deleted, s.freed, s.attempts ++ [p]⟩ := by
      rw [delStep, hp]
    rw [hstep]
    exact ih _ fun q hq => hall q (List.mem_cons_of_mem _ hq)

theorem delGroup_of_clean (size : β → Nat) (s : DelState β) (paths : List String)
    (hc : groupClean s.fs paths) :
    (delGroup size s paths).fs = s.fs ∧
    (delGroup size s paths).deleted = s.deleted ∧
    (delGroup size s paths).freed = s.freed := by
  cases paths with
  | nil => exact ⟨rfl, rfl, rfl⟩
  | cons k rest =>
    rcases hc with hc | hc
    · rw [delGroup, hc]; exact ⟨rfl, rfl, rfl⟩
    · cases hk : s.fs k with
      | none => rw [delGroup, hk]; exact ⟨rfl, rfl, rfl⟩
      | some v => rw [delGroup, hk]; exact foldl_delStep_of_all_none _ rest s hc

theorem foldl_delGroup_clean_all (size : β → Nat) :
    ∀ (G : List (α × List String)) (s : DelState β), ∀ g ∈ G,
      groupClean (G.foldl (fun s g => delGroup size s g.2) s).fs g.2 := by
  intro G
  induction G with
  | nil => intro s g hg; simp at hg
  | cons g0 T ih =>
    intro s g hg
    rw [List.foldl_cons]
    rcases List.mem_cons.mp hg with h | h
    · subst h
      exact groupClean_mono (foldl_delGroup_fs_sub size T _) g.2
        (delGroup_clean_after size s g.2)
    · exact ih _ g h

theorem foldl_delGroup_of_clean (size : β → Nat) :
    ∀ (G : List (α × List String)) (s : DelState β),
      (∀ g ∈ G, groupClean s.fs g.2) →
      (G.foldl (fun s g => delGroup size s g.2) s).fs = s.fs ∧
      (G.foldl (fun s g => delGroup size s g.2) s).deleted = s.deleted ∧
      (G.foldl (fun s g => delGroup size s g.2) s).freed = s.freed := by
  intro G
  induction G with
  | nil => intro s _; exact ⟨rfl, rfl, rfl⟩
  | cons g0 T ih =>
    intro s hc
    rw [List.foldl_cons]
    obtain ⟨hfs, hdel, hfr⟩ :=
      delGroup_of_clean size s g0.2 (hc g0 (List.mem_cons_self g0 T))
    have htail := ih (delGroup size s g0.2) fun g hg => by
      rw [hfs]; exact hc g (List.mem_cons_of_mem _ hg)
    exact ⟨htail.1.trans hfs, htail.2.1.trans hdel, htail.2.2.trans hfr⟩

/-- Claim C10: a group with an empty path list is a no-op for
`delete_duplicates` — it raises no error, deletes nothing, changes neither
counter, and processing continues exactly as if the group were absent. -/
theorem delete_empty_group_noop (size : β → Nat) (fs : FS β) (d : α)
    (G₁ G₂ : List (α × List String)) :
    delete_duplicates size fs (G₁ ++ (d, []) :: G₂) =
      delete_duplicates size fs (G₁ ++ G₂) := by
  unfold delete_duplicates
  rw [List.foldl_append, List.foldl_append, List.foldl_cons]
  rfl

/-- Claim C6: running `delete_duplicates` a second time on the same
DuplicateSet, over the filesystem left by the first run, deletes 0 files,
frees 0 bytes, and leaves the filesystem unchanged. -/
theorem delete_duplicates_idempotent (size : β → Nat) (fs : FS β)
    (dups : List (α × List String)) :
    (delete_duplicates size (delete_duplicates size fs dups).fs dups).deleted = 0 ∧
    (delete_duplicates size (delete_duplicates size fs dups).fs dups).freed = 0 ∧
    (delete_duplicates size (delete_duplicates size fs dups).fs dups).fs =
      (delete_duplicates size fs dups).fs := by
  have hclean : ∀ g ∈ dups, groupClean (delete_duplicates size fs dups).fs g.2 :=
    foldl_delGroup_clean_all size dups ⟨fs, 0, 0, []⟩
  have h := foldl_delGroup_of_clean size dups
    ⟨(delete_duplicates size fs dups).fs, 0, 0, []⟩ hclean
  exact ⟨h.2.1, h.2.2, h.1⟩

/-- Claim C2 (amended): when `delete_duplicates` reaches a group, the paths
it attempts to unlink are exactly the paths at indices 1 and up — all of
them, regardless of individual failures — provided `stat` on the keeper
(index 0) succeeds; when the keeper's `stat` fails the whole group is
skipped and nothing in it is attempted.  Only paths at indices 1 and up can
have their filesystem entry changed by the group, and later groups only
extend the attempt trace. -/
theorem delete_duplicates_group_processing (size : β → Nat) (fs : FS β)
    (G₁ : List (α × List String)) (d : α) (paths : List String)
    (G₂ : List (α × List String)) :
    ((delete_duplicates size fs (G₁ ++ [(d, paths)])).attempts =
        (delete_duplicates size fs G₁).attempts ++
          (match paths with
           | [] => []
           | keeper :: rest =>
             if ((delete_duplicates size fs G₁).fs keeper).isNone then [] else rest)) ∧
    (∀ q, (delete_duplicates size fs (G₁ ++ [(d, paths)])).fs q ≠
        (delete_duplicates size fs G₁).fs q →
      ∃ keeper rest, paths = keeper :: rest ∧ q ∈ rest) ∧
    (∃ t, (delete_duplicates size fs (G₁ ++ (d, paths) :: G₂)).attempts =
        (delete_duplicates size fs (G₁ ++ [(d, paths)])).attempts ++ t) := by
  have h1 : delete_duplicates size fs (G₁ ++ [(d, paths)]) =
      delGroup size (delete_duplicates size fs G₁) paths := by
    unfold delete_duplicates
    rw [List.foldl_append]
    rfl
  have h3 : delete_duplicates size fs (G₁ ++ (d, paths) :: G₂) =
      G₂.foldl (fun s g => delGroup size s g.2)
        (delGroup size (delete_duplicates size fs G₁) paths) := by
    unfold delete_duplicates
    rw [List.foldl_append, List.foldl_cons]
  refine ⟨?_, ?_, ?_⟩
  · rw [h1, delGroup_attempts]
  · intro q hq
    rw [h1] at hq
    exact delGroup_fs_change size _ paths q hq
  · rw [h3, h1]
    exact foldl_delGroup_attempts_extend size G₂ _

/-- Witness for `delete_duplicates_group_processing` at a concrete input. -/
theorem delete_duplicates_group_processing_witness :
    (delete_duplicates (fun v => v)
        (fun q => if q = "a" then some 3 else if q = "b" then some 3 else none)
        (([] : List (String × List String)) ++ [("h", ["a", "b"])])).attempts =
      (delete_duplicates (fun v => v)
        (fun q => if q = "a" then some 3 else if q = "b" then some 3 else none)
        ([] : List (String × List String))).attempts ++ ["b"] := by
  have h := (delete_duplicates_group_processing (fun v => v)
    (fun q => if q = "a" then some 3 else if q = "b" then some 3 else none)
    [] "h" ["a", "b"] []).1
  rw [h]
  rfl

/-- Counterexample to claim C2 as stated: in the group `("h", ["a", "b"])`
over a filesystem where the keeper `"a"` is already gone but `"b"` exists,
`delete_duplicates` attempts no deletion at all — `"b"`, a non-keeper member
of the group, survives with zero files deleted, because the failed `stat` on
the keeper makes the loop skip the entire group. -/
theorem delete_duplicates_misses_sibling_of_lost_keeper :
    (delete_duplicates (fun v => v) (fun q => if q = "b" then some 5 else none)
        [("h", ["a", "b"])]).attempts = [] ∧
    (delete_duplicates (fun v => v) (fun q => if q = "b" then some 5 else none)
        [("h", ["a", "b"])]).deleted = 0 ∧
    (delete_duplicates (fun v => v) (fun q => if q = "b" then some 5 else none)
        [("h", ["a", "b"])]).fs "b" = some 5 ∧
    "b" ∈ ["a", "b"].drop 1 := by
  exact ⟨rfl, rfl, rfl, by decide⟩

theorem analyzeSpace_eq (size : β → Nat) (fs : FS β) :
    ∀ dups : List (α × List String), (∀ g ∈ dups, g.2 ≠ []) →
      analyzeSpace size fs dups = some ((dups.map fun g =>
        match g.2 with
        | [] => 0
        | keeper :: _ =>
          match fs keeper with
          | none => 0
          | some v => size v * (g.2.length - 1)).sum) := by
  intro dups
  induction dups with
  | nil => intro _; rfl
  | cons g rest ih =>
    intro h
    obtain ⟨dg, paths⟩ := g
    cases paths with
    | nil => exact absurd rfl (h (dg, []) (List.mem_cons_self _ _))
    | cons k t =>
      have hrest := ih fun g hg => h g (List.mem_cons_of_mem _ hg)
      cases hk : fs k with
      | none => simp [analyzeSpace, hrest, hk]
      | some v => simp [analyzeSpace, hrest, hk]

/-- Claim C5: `analyze_duplicates` returns `set_count` equal to the number of
groups, and `reclaimable_bytes` equal to the sum over groups of the keeper's
size times (group length - 1); a group whose keeper can no longer be
stat-ed contributes nothing to the sum and does not make the call fail
(every group of a DuplicateSet is nonempty, which the hypothesis records). -/
theorem analyze_duplicates_stats (size : β → Nat) (fs : FS β)
    (dups : List (α × List String)) (h : ∀ g ∈ dups, g.2 ≠ []) :
    analyze_duplicates size fs dups = some (dups.length,
      (dups.map fun g =>
        match g.2 with
        | [] => 0
        | keeper :: _ =>
          match fs keeper with
          | none => 0
          | some v => size v * (g.2.length - 1)).sum) := by
  unfold analyze_duplicates
  rw [analyzeSpace_eq size fs dups h]
  rfl

/-- Witness for `analyze_duplicates_stats`: groups of sizes 3, 2, 2 with data
sizes 3 and 7, the second group's keeper gone, give `(3, 3*2 + 0 + 7*1)`. -/
theorem analyze_duplicates_stats_witness :
    analyze_duplicates (fun v => v)
      (fun q => if q = "a" then some 3 else if q = "c" then some 7 else none)
      [("h1", ["a", "b", "x"]), ("h2", ["gone", "y"]), ("h3", ["c", "d"])] =
      some (3, 13) := by
  have h := analyze_duplicates_stats (fun v => v)
    (fun q => if q = "a" then some 3 else if q = "c" then some 7 else none)
    [("h1", ["a", "b", "x"]), ("h2", ["gone", "y"]), ("h3", ["c", "d"])]
    (by decide)
  rw [h]
  rfl

theorem invalidRootMsg_head (d : String) :
    (invalidRootMsg d).data.head? = some '\'' := by
  have h : (invalidRootMsg d).data =
      "'".data ++ d.data ++ "' is not a valid directory".data := by
    simp [invalidRootMsg, String.data_append]
  rw [h]
  rfl

/-- Claim C4: when the root path is not an accessible directory, the scan
operation (argument validation followed by `find_duplicates`, as wired in
`cli.main`) surfaces the invalid-root error immediately — an error distinct
from the other validation errors — and never returns an ordinary result, in
particular not an empty DuplicateSet. -/
theorem runScan_invalid_root [DecidableEq α] (isDir : String → Bool) (a : Args)
    (hash : List Nat → α) (entries : List FileEntry)
    (h : isDir a.directory = false) :
    runScan isDir a hash entries = .error (invalidRootMsg a.directory) ∧
    invalidRootMsg a.directory ≠ conflictMsg ∧
    invalidRootMsg a.directory ≠ negativeSizeMsg ∧
    ∀ r, runScan isDir a hash entries ≠ .ok r := by
  have hrun : runScan isDir a hash entries = .error (invalidRootMsg a.directory) := by
    unfold runScan validate_args
    rw [h]
    rfl
  refine ⟨hrun, ?_, ?_, ?_⟩
  · intro he
    have h2 : (invalidRootMsg a.directory).data.head? = conflictMsg.data.head? :=
      congrArg (fun s => s.data.head?) he
    rw [invalidRootMsg_head] at h2
    exact absurd h2 (by decide)
  · intro he
    have h2 : (invalidRootMsg a.directory).data.head? = negativeSizeMsg.data.head? :=
      congrArg (fun s => s.data.head?) he
    rw [invalidRootMsg_head] at h2
    exact absurd h2 (by decide)
  · intro r
    rw [hrun]
    exact fun hc => Except.noConfusion hc

/-- Witness for `runScan_invalid_root` at a concrete input. -/
theorem runScan_invalid_root_witness :
    runScan (fun _ => false) ⟨"/nope", true, 1, false, false, false⟩
      (fun c : List Nat => c) [] = Except.error (invalidRootMsg "/nope") :=
  (runScan_invalid_root (fun _ => false) ⟨"/nope", true, 1, false, false, false⟩
    (fun c : List Nat => c) [] rfl).1

theorem scan_events_eq_spec_foldl [DecidableEq α] (hash : List Nat → α) (minSize : Nat) :
    ∀ entries : List FileEntry,
      (∀ e ∈ entries, ∀ sz, e.statSize = some sz → ¬ sz < minSize → e.content.isSome) →
      ∀ (g : List (α × List String)) (t p : Nat) (ev : List (Nat × Nat)),
        (entries.foldl (scanStep hash minSize true) ⟨g, t, p, ev⟩).totalFiles =
          (entries.foldl (specProgressStep minSize) (t, p, ev)).1 ∧
        (entries.foldl (scanStep hash minSize true) ⟨g, t, p, ev⟩).processedFiles =
          (entries.foldl (specProgressStep minSize) (t, p, ev)).2.1 ∧
        (entries.foldl (scanStep hash minSize true) ⟨g, t, p, ev⟩).events =
          (entries.foldl (specProgressStep minSize) (t, p, ev)).2.2 := by
  intro entries
  induction entries with
  | nil =>
    intro _ g t p ev
    exact ⟨rfl, rfl, rfl⟩
  | cons e rest ih =>
    intro h g t p ev
    have hrest := ih fun e' he' sz hsz hlt =>
      h e' (List.mem_cons_of_mem _ he') sz hsz hlt
    rw [List.foldl_cons, List.foldl_cons]
    cases hs : e.statSize with
    | none =>
      have hstep : scanStep hash minSize true ⟨g, t, p, ev⟩ e = ⟨g, t + 1, p, ev⟩ := by
        simp [scanStep, hs]
      have hspec : specProgressStep minSize (t, p, ev) e = (t + 1, p, ev) := by
        simp [specProgressStep, hashedOk, hs]
      rw [hstep, hspec]
      exact hrest g (t + 1) p ev
    | some sz =>
      by_cases hlt : sz < minSize
      · have hstep : scanStep hash minSize true ⟨g, t, p, ev⟩ e = ⟨g, t + 1, p, ev⟩ := by
          simp [scanStep, hs, hlt]
        have hspec : specProgressStep minSize (t, p, ev) e = (t + 1, p, ev) := by
          simp [specProgressStep, hashedOk, hs, hlt]
        rw [hstep, hspec]
        exact hrest g (t + 1) p ev
      · have hcont : e.content.isSome := h e (List.mem_cons_self e rest) sz hs hlt
        obtain ⟨c, hc⟩ := Option.isSome_iff_exists.mp hcont
        have hstep : scanStep hash minSize true ⟨g, t, p, ev⟩ e =
            ⟨addPath g (hash c) e.path, t + 1, p + 1,
              if (p + 1) % 100 == 0 then ev ++ [(p + 1, t + 1)] else ev⟩ := by
          simp [scanStep, hs, hlt, calculate_file_hash, hc]
        have hspec : specProgressStep minSize (t, p, ev) e =
            (t + 1, p + 1, if (p + 1) % 100 == 0 then ev ++ [(p + 1, t + 1)] else ev) := by
          simp [specProgressStep, hashedOk, hs, hlt, hc]
        rw [hstep, hspec]
        exact hrest _ (t + 1) (p + 1) _

/-- Claim C3 (amended): provided every file that passes the size filter is
successfully hashed, the progress callback fires exactly as the spec says:
once per 100th successfully hashed file, with cumulative
`(processed_files, total_files)` where total counts the files enumerated so
far.  (In general the source also runs the callback test after a
size-passing file whose hash fails, so extra invocations occur whenever the
successful-hash count is then divisible by 100, including at 0.) -/
theorem progress_events_match_spec [DecidableEq α] (hash : List Nat → α) (minSize : Nat)
    (entries : List FileEntry)
    (h : ∀ e ∈ entries, ∀ sz, e.statSize = some sz → ¬ sz < minSize → e.content.isSome) :
    (scanFold hash minSize true entries).events = specProgressEvents minSize entries :=
  (scan_events_eq_spec_foldl hash minSize entries h [] 0 0 []).2.2

/-- Witness for `progress_events_match_spec`: 100 hashable files produce the
single invocation `(100, 100)`. -/
theorem progress_events_match_spec_witness :
    (scanFold (fun c : List Nat => c) 1 true
        (List.replicate 100 ⟨"f", some 1, some [7]⟩)).events =
      specProgressEvents 1 (List.replicate 100 ⟨"f", some 1, some [7]⟩) ∧
    specProgressEvents 1 (List.replicate 100 ⟨"f", some 1, some [7]⟩) = [(100, 100)] := by
  constructor
  · exact progress_events_match_spec (fun c : List Nat => c) 1
      (List.replicate 100 ⟨"f", some 1, some [7]⟩) (by decide)
  · rfl

/-- Counterexample to claim C3 as stated: a single file that passes the size
filter but cannot be read produces a callback invocation `(0, 1)` — the
callback fires although not a single file was successfully hashed, so the
invocation sequence is not one invocation per 100 successful hashes (the
spec-mandated sequence for this scan is empty). -/
theorem progress_fires_without_successful_hash :
    (scanFold (fun c : List Nat => c) 1 true [⟨"a", some 5, none⟩]).events = [(0, 1)] ∧
    (scanFold (fun c : List Nat => c) 1 true [⟨"a", some 5, none⟩]).processedFiles = 0 ∧
    specProgressEvents 1 [⟨"a", some 5, none⟩] = [] :=
  ⟨rfl, rfl, rfl⟩

theorem one_lt_length_of_two_mem {γ : Type} {l : List γ} {a b : γ}
    (ha : a ∈ l) (hb : b ∈ l) (hne : a ≠ b) : 1 < l.length := by
  cases l with
  | nil => cases ha
  | cons x t =>
    cases t with
    | nil =>
      rw [List.mem_singleton] at ha hb
      exact absurd (ha.trans hb.symm) hne
    | cons y u =>
      rw [List.length_cons, List.length_cons]
      omega

theorem entry_eq_of_path_eq (entries : List FileEntry)
    (hNd : (entries.map (·.path)).Nodup) (e1 e2 : FileEntry)
    (h1 : e1 ∈ entries) (h2 : e2 ∈ entries) (hp : e1.path = e2.path) : e1 = e2 := by
  have hl : entries.Nodup := List.Nodup.of_map _ hNd
  exact (List.nodup_map_iff_inj_on hl).mp hNd e1 h1 e2 h2 hp

theorem mem_scanHits_iff [DecidableEq α] (hash : List Nat → α) (minSize : Nat) (d : α)
    (entries : List FileEntry) (p : String) :
    p ∈ scanHits hash minSize d entries ↔
      ∃ e, e ∈ entries ∧ entryDigest hash minSize e = some d ∧ e.path = p := by
  constructor
  · intro h
    obtain ⟨e, he, hp⟩ := List.mem_map.mp h
    obtain ⟨hmem, hd⟩ := List.mem_filter.mp he
    exact ⟨e, hmem, of_decide_eq_true hd, hp⟩
  · rintro ⟨e, hmem, hd, hp⟩
    exact List.mem_map.mpr ⟨e, List.mem_filter.mpr ⟨hmem, decide_eq_true hd⟩, hp⟩

theorem entryDigest_eq_some (hash : List Nat → α) (minSize : Nat) (e : FileEntry)
    (sz : Nat) (c : List Nat) (hs : e.statSize = some sz) (hm : ¬ sz < minSize)
    (hc : e.content = some c) : entryDigest hash minSize e = some (hash c) := by
  simp [entryDigest, hs, hm, calculate_file_hash, hc]

theorem head?_filter_eq_find? {γ : Type} (p : γ → Bool) :
    ∀ l : List γ, (l.filter p).head? = l.find? p := by
  intro l
  induction l with
  | nil => rfl
  | cons a t ih =>
    cases h : p a with
    | true => simp [List.filter_cons, List.find?_cons, h]
    | false => simp [List.filter_cons, List.find?_cons, h, ih]

/-- Claim C1: under a scan, two distinct readable files of size at least
`minSize` with byte-identical content always land in the same group of the
result, and (with digests faithful to content, as the spec assumes of MD5)
two files with differing content never share a group, whatever their
sizes. -/
theorem find_duplicates_groups_by_content [DecidableEq α] (hash : List Nat → α)
    (hInj : Function.Injective hash) (minSize : Nat) (hasCb : Bool)
    (entries : List FileEntry) (hNd : (entries.map (·.path)).Nodup)
    (e1 e2 : FileEntry) (h1 : e1 ∈ entries) (h2 : e2 ∈ entries)
    (hne : e1.path ≠ e2.path) (c1 c2 : List Nat)
    (hc1 : e1.content = some c1) (hc2 : e2.content = some c2)
    (s1 s2 : Nat) (hs1 : e1.statSize = some s1) (hs2 : e2.statSize = some s2)
    (hm1 : minSize ≤ s1) (hm2 : minSize ≤ s2) :
    (c1 = c2 → ∃ ps, (hash c1, ps) ∈ find_duplicates hash minSize hasCb entries ∧
        e1.path ∈ ps ∧ e2.path ∈ ps) ∧
    (c1 ≠ c2 → ∀ d ps, (d, ps) ∈ find_duplicates hash minSize hasCb entries →
        ¬ (e1.path ∈ ps ∧ e2.path ∈ ps)) := by
  have hd1 := entryDigest_eq_some hash minSize e1 s1 c1 hs1 (Nat.not_lt.mpr hm1) hc1
  have hd2 := entryDigest_eq_some hash minSize e2 s2 c2 hs2 (Nat.not_lt.mpr hm2) hc2
  constructor
  · intro hceq
    subst hceq
    have hp1 : e1.path ∈ scanHits hash minSize (hash c1) entries :=
      (mem_scanHits_iff hash minSize (hash c1) entries e1.path).mpr ⟨e1, h1, hd1, rfl⟩
    have hp2 : e2.path ∈ scanHits hash minSize (hash c1) entries :=
      (mem_scanHits_iff hash minSize (hash c1) entries e2.path).mpr ⟨e2, h2, hd2, rfl⟩
    refine ⟨scanHits hash minSize (hash c1) entries, ?_, hp1, hp2⟩
    exact (mem_find_duplicates_iff hash minSize hasCb entries (hash c1) _).mpr
      ⟨rfl, one_lt_length_of_two_mem hp1 hp2 hne⟩
  · intro hcne d ps hmem hboth
    obtain ⟨hps, _⟩ := (mem_find_duplicates_iff hash minSize hasCb entries d ps).mp hmem
    obtain ⟨f1, hf1m, hf1d, hf1p⟩ :=
      (mem_scanHits_iff hash minSize d entries e1.path).mp (hps ▸ hboth.1)
    obtain ⟨f2, hf2m, hf2d, hf2p⟩ :=
      (mem_scanHits_iff hash minSize d entries e2.path).mp (hps ▸ hboth.2)
    have he1 : f1 = e1 := entry_eq_of_path_eq entries hNd f1 e1 hf1m h1 (by rw [hf1p])
    have he2 : f2 = e2 := entry_eq_of_path_eq entries hNd f2 e2 hf2m h2 (by rw [hf2p])
    subst he1
    subst he2
    rw [hd1] at hf1d
    rw [hd2] at hf2d
    have : hash c1 = hash c2 := by
      rw [Option.some.injEq] at hf1d hf2d
      rw [hf1d, hf2d]
    exact hcne (hInj this)

/-- Witness for `find_duplicates_groups_by_content`: the spec's concrete
scenario `a.txt="X"`, `b.txt="X"`, `c.txt="Y"` puts `a` and `b` in one
group. -/
theorem find_duplicates_groups_by_content_witness :
    ∃ ps, (([88] : List Nat), ps) ∈ find_duplicates (fun c : List Nat => c) 1 false
        [⟨"a", some 1, some [88]⟩, ⟨"b", some 1, some [88]⟩, ⟨"c", some 1, some [89]⟩] ∧
      "a" ∈ ps ∧ "b" ∈ ps :=
  (find_duplicates_groups_by_content (fun c : List Nat => c) (fun _ _ h => h) 1 false
    [⟨"a", some 1, some [88]⟩, ⟨"b", some 1, some [88]⟩, ⟨"c", some 1, some [89]⟩]
    (by decide) ⟨"a", some 1, some [88]⟩ ⟨"b", some 1, some [88]⟩ (by decide) (by decide)
    (by decide) [88] [88] rfl rfl 1 1 rfl rfl (by decide) (by decide)).1 rfl

/-- Claim C8: every group of a scan result lists its paths in traversal
discovery order (a subsequence of the enumeration order), and its keeper —
index 0 — is the path of the first entry discovered with that digest. -/
theorem group_preserves_discovery_order [DecidableEq α] (hash : List Nat → α)
    (minSize : Nat) (hasCb : Bool) (entries : List FileEntry) (d : α) (ps : List String)
    (h : (d, ps) ∈ find_duplicates hash minSize hasCb entries) :
    ps = scanHits hash minSize d entries ∧
    ps.Sublist (entries.map (·.path)) ∧
    ps.head? = Option.map (·.path)
      (entries.find? fun e => decide (entryDigest hash minSize e = some d)) := by
  obtain ⟨hps, _⟩ := (mem_find_duplicates_iff hash minSize hasCb entries d ps).mp h
  refine ⟨hps, ?_, ?_⟩
  · rw [hps]
    unfold scanHits
    exact List.Sublist.map _ (List.filter_sublist _)
  · rw [hps]
    unfold scanHits
    rw [List.head?_map, head?_filter_eq_find?]

/-- Witness for `group_preserves_discovery_order` at a concrete input. -/
theorem group_preserves_discovery_order_witness :
    (["a", "b"] : List String).Sublist
      (([⟨"a", some 1, some [88]⟩, ⟨"z", some 1, some [89]⟩,
          ⟨"b", some 1, some [88]⟩] : List FileEntry).map (·.path)) :=
  (group_preserves_discovery_order (fun c : List Nat => c) 1 false
    [⟨"a", some 1, some [88]⟩, ⟨"z", some 1, some [89]⟩, ⟨"b", some 1, some [88]⟩]
    [88] ["a", "b"] (by decide)).2.1

/-- Claim C9: with `min_size = 0` zero-byte files are not filtered out, and
whenever the scan covers two (or more) of them they all appear together in a
single group of the result. -/
theorem min_size_zero_zero_byte_single_group [DecidableEq α] (hash : List Nat → α)
    (hasCb : Bool) (entries : List FileEntry) (e1 e2 : FileEntry)
    (h1 : e1 ∈ entries) (h2 : e2 ∈ entries) (hne : e1.path ≠ e2.path)
    (hz1 : e1.statSize = some 0) (hc1 : e1.content = some [])
    (hz2 : e2.statSize = some 0) (hc2 : e2.content = some []) :
    ∃ ps, (hash [], ps) ∈ find_duplicates hash 0 hasCb entries ∧
      ∀ e ∈ entries, e.statSize = some 0 → e.content = some [] → e.path ∈ ps := by
  have hd1 := entryDigest_eq_some hash 0 e1 0 [] hz1 (by omega) hc1
  have hd2 := entryDigest_eq_some hash 0 e2 0 [] hz2 (by omega) hc2
  have hp1 : e1.path ∈ scanHits hash 0 (hash []) entries :=
    (mem_scanHits_iff hash 0 (hash []) entries e1.path).mpr ⟨e1, h1, hd1, rfl⟩
  have hp2 : e2.path ∈ scanHits hash 0 (hash []) entries :=
    (mem_scanHits_iff hash 0 (hash []) entries e2.path).mpr ⟨e2, h2, hd2, rfl⟩
  refine ⟨scanHits hash 0 (hash []) entries, ?_, ?_⟩
  · exact (mem_find_duplicates_iff hash 0 hasCb entries (hash []) _).mpr
      ⟨rfl, one_lt_length_of_two_mem hp1 hp2 hne⟩
  · intro e he hz hc
    exact (mem_scanHits_iff hash 0 (hash []) entries e.path).mpr
      ⟨e, he, entryDigest_eq_some hash 0 e 0 [] hz (by omega) hc, rfl⟩

/-- Witness for `min_size_zero_zero_byte_single_group` at a concrete input. -/
theorem min_size_zero_zero_byte_single_group_witness :
    ∃ ps, (([] : List Nat), ps) ∈ find_duplicates (fun c : List Nat => c) 0 false
        [⟨"a", some 0, some []⟩, ⟨"b", some 0, some []⟩] ∧
      ∀ e ∈ ([⟨"a", some 0, some []⟩, ⟨"b", some 0, some []⟩] : List FileEntry),
        e.statSize = some 0 → e.content = some [] → e.path ∈ ps :=
  min_size_zero_zero_byte_single_group (fun c : List Nat => c) false
    [⟨"a", some 0, some []⟩, ⟨"b", some 0, some []⟩]
    ⟨"a", some 0, some []⟩ ⟨"b", some 0, some []⟩
    (by decide) (by decide) (by decide) rfl rfl rfl rfl

/-- The file entry the walk produces for path `p` over filesystem `f`:
`stat` reports the byte length of the content, reading yields the bytes,
and both fail exactly when the file is absent. -/
def mkEntry (f : FS (List Nat)) (p : String) : FileEntry :=
  ⟨p, (f p).map List.length, f p⟩

theorem scanHits_map_mkEntry [DecidableEq α] (hash : List Nat → α) (minSize : Nat) (d : α)
    (f : FS (List Nat)) :
    ∀ listing : List String,
      scanHits hash minSize d (listing.map (mkEntry f)) =
        listing.filter fun p => decide (entryDigest hash minSize (mkEntry f p) = some d) := by
  intro listing
  induction listing with
  | nil => rfl
  | cons p t ih =>
    rw [List.map_cons, scanHits_cons, ih, List.filter_cons]
    by_cases hd : entryDigest hash minSize (mkEntry f p) = some d
    · rw [if_pos hd, if_pos (decide_eq_true hd)]
      rfl
    · rw [if_neg hd, if_neg (by simpa using hd)]
      rfl

theorem mkEntry_digest_some [DecidableEq α] (hash : List Nat → α) (minSize : Nat)
    (f : FS (List Nat)) (p : String) (d : α)
    (h : entryDigest hash minSize (mkEntry f p) = some d) :
    ∃ c, f p = some c ∧ ¬ c.length < minSize ∧ hash c = d := by
  cases hf : f p with
  | none => simp [entryDigest, mkEntry, hf] at h
  | some c =>
    by_cases hlt : c.length < minSize
    · simp [entryDigest, mkEntry, hf, hlt] at h
    · simp [entryDigest, mkEntry, hf, hlt, calculate_file_hash] at h
      exact ⟨c, rfl, hlt, h⟩

theorem mkEntry_digest_of (hash : List Nat → α) (minSize : Nat) (f : FS (List Nat))
    (p : String) (c : List Nat) (hf : f p = some c) (hlt : ¬ c.length < minSize) :
    entryDigest hash minSize (mkEntry f p) = some (hash c) := by
  simp [entryDigest, mkEntry, hf, hlt, calculate_file_hash]

theorem foldl_delGroup_clears_tails (size : β → Nat) :
    ∀ (G : List (α × List String)) (s : DelState β),
      (∀ g ∈ G, ∀ p ∈ g.2, s.fs p ≠ none) →
      G.Pairwise (fun g g' => ∀ p, p ∈ g.2 → p ∈ g'.2 → False) →
      (∀ g ∈ G, ∀ p ∈ g.2.tail,
        (G.foldl (fun s g => delGroup size s g.2) s).fs p = none) ∧
      (∀ q, (∀ g ∈ G, q ∉ g.2.tail) →
        (G.foldl (fun s g => delGroup size s g.2) s).fs q = s.fs q) := by
  intro G
  induction G with
  | nil =>
    intro s _ _
    exact ⟨fun g hg => absurd hg (List.not_mem_nil g), fun q _ => rfl⟩
  | cons g0 T ih =>
    intro s hpres hpair
    have hdisj : ∀ g' ∈ T, ∀ p, p ∈ g0.2 → p ∈ g'.2 → False :=
      fun g' hg' => (List.pairwise_cons.mp hpair).1 g' hg'
    have hpairT := (List.pairwise_cons.mp hpair).2
    simp only [List.foldl_cons]
    cases hc : g0.2 with
    | nil =>
      have hid : delGroup size s ([] : List String) = s := rfl
      rw [hid]
      have hT := ih s (fun g hg => hpres g (List.mem_cons_of_mem _ hg)) hpairT
      refine ⟨?_, ?_⟩
      · intro g hg p hp
        rcases List.mem_cons.mp hg with h | h
        · subst h
          rw [hc] at hp
          cases hp
        · exact hT.1 g h p hp
      · intro q hq
        exact hT.2 q fun g hg => hq g (List.mem_cons_of_mem _ hg)
    | cons k rest =>
      have hk : s.fs k ≠ none :=
        hpres g0 (List.mem_cons_self g0 T) k (by rw [hc]; exact List.mem_cons_self k rest)
      obtain ⟨v, hv⟩ : ∃ v, s.fs k = some v := by
        cases hsk : s.fs k with
        | none => exact absurd hsk hk
        | some v => exact ⟨v, rfl⟩
      have hstep : delGroup size s (k :: rest) = rest.foldl (delStep (size v)) s := by
        simp [delGroup, hv]
      rw [hstep]
      have hrest_none : ∀ p ∈ rest, (rest.foldl (delStep (size v)) s).fs p = none :=
        fun p hp => foldl_delStep_fs_mem _ rest s p hp
      have huntouched : ∀ q, q ∉ rest → (rest.foldl (delStep (size v)) s).fs q = s.fs q :=
        fun q hq => foldl_delStep_fs_untouched _ rest s q hq
      have hpresT : ∀ g ∈ T, ∀ p ∈ g.2, (rest.foldl (delStep (size v)) s).fs p ≠ none := by
        intro g hg p hp
        have hnr : p ∉ rest := by
          intro hr
          exact hdisj g hg p (by rw [hc]; exact List.mem_cons_of_mem _ hr) hp
        rw [huntouched p hnr]
        exact hpres g (List.mem_cons_of_mem _ hg) p hp
      have hT := ih (rest.foldl (delStep (size v)) s) hpresT hpairT
      refine ⟨?_, ?_⟩
      · intro g hg p hp
        rcases List.mem_cons.mp hg with h | h
        · subst h
          rw [hc, List.tail_cons] at hp
          exact (foldl_delGroup_fs_sub size T _).none (hrest_none p hp)
        · exact hT.1 g h p hp
      · intro q hq
        have hq0 : q ∉ rest := by
          have h0 := hq g0 (List.mem_cons_self g0 T)
          rw [hc, List.tail_cons] at h0
          exact h0
        rw [hT.2 q fun g hg => hq g (List.mem_cons_of_mem _ hg), huntouched q hq0]

theorem exists_two_distinct_of_nodup_one_lt {γ : Type} {l : List γ}
    (hNd : l.Nodup) (hlen : 1 < l.length) : ∃ x y, x ∈ l ∧ y ∈ l ∧ x ≠ y := by
  cases l with
  | nil => simp at hlen
  | cons x t =>
    cases t with
    | nil => simp at hlen
    | cons y u =>
      refine ⟨x, y, List.mem_cons_self x _, List.mem_cons_of_mem _ (List.mem_cons_self y u), ?_⟩
      intro he
      subst he
      exact (List.nodup_cons.mp hNd).1 (List.mem_cons_self x u)

/-- Claim C7: scanning a directory, deleting the duplicates found, and
scanning again with the same parameters yields an empty DuplicateSet,
provided no files were added in between (the rescan walks the surviving
files of the same listing). -/
theorem scan_delete_rescan_empty [DecidableEq α] (hash : List Nat → α) (minSize : Nat)
    (hasCb hasCb2 : Bool) (f : FS (List Nat)) (listing : List String)
    (hNd : listing.Nodup) :
    find_duplicates hash minSize hasCb2 (listing.map (mkEntry
      (delete_duplicates List.length f
        (find_duplicates hash minSize hasCb (listing.map (mkEntry f)))).fs)) = [] := by
  set G := find_duplicates hash minSize hasCb (listing.map (mkEntry f)) with hG
  set D := delete_duplicates List.length f G with hDdef
  have hDfold : D = G.foldl (fun s g => delGroup List.length s g.2) ⟨f, 0, 0, []⟩ := rfl
  -- every group of the first scan is the ordered filter of the listing
  have hchar : ∀ g ∈ G, g.2 = listing.filter
      fun p => decide (entryDigest hash minSize (mkEntry f p) = some g.1) := by
    intro g hg
    obtain ⟨hps, _⟩ :=
      (mem_find_duplicates_iff hash minSize hasCb (listing.map (mkEntry f)) g.1 g.2).mp
        (by rw [← hG]; exact hg)
    rw [hps, scanHits_map_mkEntry]
  -- every path of every group of the first scan is present in `f`
  have hpres : ∀ g ∈ G, ∀ p ∈ g.2, (f p : Option (List Nat)) ≠ none := by
    intro g hg p hp
    rw [hchar g hg] at hp
    obtain ⟨c, hc, _, _⟩ := mkEntry_digest_some hash minSize f p g.1
      (of_decide_eq_true (List.mem_filter.mp hp).2)
    rw [hc]
    exact Option.some_ne_none c
  -- groups of the first scan are pairwise disjoint
  have hkeys : (keysG G).Nodup := by
    have hsub : (keysG G).Sublist (keysG (scanFold hash minSize hasCb
        (listing.map (mkEntry f))).groups) :=
      List.Sublist.map Prod.fst (List.filter_sublist _)
    exact (scanFold_keys_nodup hash minSize hasCb (listing.map (mkEntry f))).sublist hsub
  have hpair : G.Pairwise (fun g g' => ∀ p, p ∈ g.2 → p ∈ g'.2 → False) := by
    have hne : G.Pairwise (fun g g' => g.1 ≠ g'.1) := List.pairwise_map.mp hkeys
    refine hne.imp_of_mem ?_
    intro a b ha hb hab p hpa hpb
    rw [hchar a ha] at hpa
    rw [hchar b hb] at hpb
    have hda := of_decide_eq_true (List.mem_filter.mp hpa).2
    have hdb := of_decide_eq_true (List.mem_filter.mp hpb).2
    rw [hda] at hdb
    exact hab (Option.some.injEq .. ▸ hdb)
  have hclear := foldl_delGroup_clears_tails List.length G ⟨f, 0, 0, []⟩ hpres hpair
  have hsub : FS.Sub D.fs f := by
    rw [hDfold]
    exact foldl_delGroup_fs_sub List.length G ⟨f, 0, 0, []⟩
  -- the rescan produces no group with two or more members
  unfold find_duplicates
  refine List.filter_eq_nil_iff.mpr ?_
  intro g hg hdec
  have hlen : 1 < g.2.length := of_decide_eq_true hdec
  have hps2 : g.2 = listing.filter
      fun p => decide (entryDigest hash minSize (mkEntry D.fs p) = some g.1) := by
    have h2 := eq_lookupG_of_mem _ g.1 g.2
      (scanFold_keys_nodup hash minSize hasCb2 (listing.map (mkEntry D.fs)))
      (by exact hg)
    rw [scanFold_groups_lookup, scanHits_map_mkEntry] at h2
    exact h2
  have hNd2 : g.2.Nodup := by
    rw [hps2]
    exact hNd.filter _
  obtain ⟨x, y, hx, hy, hxy⟩ := exists_two_distinct_of_nodup_one_lt hNd2 hlen
  -- survivors that still collide must both be the keeper of the same old group
  have survive : ∀ z, z ∈ g.2 → ∃ cz, D.fs z = some cz ∧ f z = some cz ∧
      ¬ cz.length < minSize ∧ hash cz = g.1 := by
    intro z hz
    rw [hps2] at hz
    obtain ⟨cz, hcz, hlt, hhz⟩ := mkEntry_digest_some hash minSize D.fs z g.1
      (of_decide_eq_true (List.mem_filter.mp hz).2)
    exact ⟨cz, hcz, hsub z cz hcz, hlt, hhz⟩
  obtain ⟨cx, hDx, hfx, hltx, hhx⟩ := survive x hx
  obtain ⟨cy, hDy, hfy, hlty, hhy⟩ := survive y hy
  have hxl : x ∈ listing := by
    have := hps2 ▸ hx
    exact (List.mem_filter.mp this).1
  have hyl : y ∈ listing := by
    have := hps2 ▸ hy
    exact (List.mem_filter.mp this).1
  -- both belonged to the old group of digest g.1
  have hq1x : x ∈ listing.filter
      fun p => decide (entryDigest hash minSize (mkEntry f p) = some g.1) :=
    List.mem_filter.mpr ⟨hxl, decide_eq_true (by rw [mkEntry_digest_of hash minSize f x cx hfx hltx, hhx])⟩
  have hq1y : y ∈ listing.filter
      fun p => decide (entryDigest hash minSize (mkEntry f p) = some g.1) :=
    List.mem_filter.mpr ⟨hyl, decide_eq_true (by rw [mkEntry_digest_of hash minSize f y cy hfy hlty, hhy])⟩
  have hmemG : (g.1, listing.filter
      fun p => decide (entryDigest hash minSize (mkEntry f p) = some g.1)) ∈ G := by
    rw [hG]
    refine (mem_find_duplicates_iff hash minSize hasCb (listing.map (mkEntry f)) g.1 _).mpr
      ⟨(scanHits_map_mkEntry hash minSize g.1 f listing).symm, ?_⟩
    exact one_lt_length_of_two_mem hq1x hq1y hxy
  -- a survivor cannot sit in the tail of its old group
  have hkeeper : ∀ z, z ∈ listing.filter
      (fun p => decide (entryDigest hash minSize (mkEntry f p) = some g.1)) →
      D.fs z ≠ none →
      ∀ k rest, listing.filter
        (fun p => decide (entryDigest hash minSize (mkEntry f p) = some g.1)) = k :: rest →
      z = k := by
    intro z hz hzD k rest hkr
    rcases List.mem_cons.mp (hkr ▸ hz) with h | h
    · exact h
    · exfalso
      apply hzD
      rw [hDfold]
      exact hclear.1 _ hmemG z (by rw [hkr, List.tail_cons]; exact h)
  cases hfilter : listing.filter
      (fun p => decide (entryDigest hash minSize (mkEntry f p) = some g.1)) with
  | nil => rw [hfilter] at hq1x; cases hq1x
  | cons k rest =>
    have hxk := hkeeper x hq1x (by rw [hDx]; exact Option.some_ne_none cx) k rest hfilter
    have hyk := hkeeper y hq1y (by rw [hDy]; exact Option.some_ne_none cy) k rest hfilter
    exact hxy (hxk.trans hyk.symm)

/-- Witness for `scan_delete_rescan_empty` at a concrete directory with one
duplicate pair and one unique file. -/
theorem scan_delete_rescan_empty_witness :
    find_duplicates (fun c : List Nat => c) 1 false (["a", "b", "c"].map (mkEntry
      (delete_duplicates List.length
        (fun q => if q = "a" then some [88] else if q = "b" then some [88]
          else if q = "c" then some [89] else none)
        (find_duplicates (fun c : List Nat => c) 1 false (["a", "b", "c"].map (mkEntry
          (fun q => if q = "a" then some [88] else if q = "b" then some [88]
            else if q = "c" then some [89] else none))))).fs)) = [] :=
  scan_delete_rescan_empty (fun c : List Nat => c) 1 false false
    (fun q => if q = "a" then some [88] else if q = "b" then some [88]
      else if q = "c" then some [89] else none)
    ["a", "b", "c"] (by decide)

end DupleFinder
